import Mathlib

/-!
Verification of the PDF-to-spreadsheet converter core
(`src/pdf_converter.py`, `src/analyze_results.py`).

The recognizer applies Python regular expressions with
`re.IGNORECASE | re.MULTILINE` to plain text.  We give a shallow embedding:
the exact regular expressions of `PDFConverter.__init__` are written as
abstract match trees (`RE`), and `reM` is a backtracking matcher with
Python `re` semantics for the constructs those expressions use
(case-insensitive literals and classes, greedy and lazy repetition with
leftmost preference, one capturing group, lookahead, and the MULTILINE
meaning of the dollar anchor: it matches at the end of the text and
immediately before every newline).  Text is `List Char`; the engine is
fuel-indexed structural recursion so that every definition evaluates
inside the kernel.
-/

namespace PdfSpec

/-- ASCII whitespace recognised by Python's `str.strip`, `str.split` and
the regex class for whitespace: space, tab, newline, carriage return,
vertical tab, form feed. -/
def isWs (c : Char) : Bool :=
  c == ' ' || c == '\t' || c == '\n' || c == '\r' ||
    c == Char.ofNat 11 || c == Char.ofNat 12

/-- Character classes occurring in the extraction expressions.
`upperAl` and `lowerAl` embed the classes written as capital and small
letter ranges; under `re.IGNORECASE` each of those ranges matches any
ASCII letter, so both predicates are `Char.isAlpha`. -/
inductive Cls where
  | ws        -- whitespace class
  | notNl     -- any char except newline (the bracketed negation of newline)
  | notWsNl   -- any char that is not whitespace (negation of ws and newline)
  | notNlCol  -- any char except newline and colon
  | upperAl   -- capital letter range, case-insensitive: any ASCII letter
  | lowerAl   -- small letter range, case-insensitive: any ASCII letter
  | dot       -- the dot: any char except newline (no DOTALL flag)
deriving DecidableEq

def clsMatch : Cls → Char → Bool
  | .ws, c => isWs c
  | .notNl, c => c != '\n'
  | .notWsNl, c => !(isWs c)
  | .notNlCol, c => c != '\n' && c != ':'
  | .upperAl, c => c.isAlpha
  | .lowerAl, c => c.isAlpha
  | .dot, c => c != '\n'

/-- Match trees for the regular-expression dialect used by the converter. -/
inductive RE where
  | eps
  | lit (c : Char)           -- literal char, matched case-insensitively
  | cls (k : Cls)
  | seq (a b : RE)
  | alt (a b : RE)           -- ordered alternation, left preferred
  | star (r : RE) (lzy : Bool)  -- repetition; `lzy = true` prefers fewer copies
  | group (r : RE)           -- the single capturing group of a pattern
  | look (r : RE)            -- zero-width lookahead
  | eol                      -- dollar anchor under MULTILINE
deriving DecidableEq

/-- A sequence of case-insensitive literals. -/
def litS (cs : String) : RE := cs.toList.foldr (fun c r => RE.seq (RE.lit c) r) RE.eps

/-- Greedy one-or-more repetition. -/
def plus1 (r : RE) : RE := RE.seq r (RE.star r false)

/-- Greedy zero-or-one repetition. -/
def opt1 (r : RE) : RE := RE.alt r RE.eps

/-- Capture span: start and end offsets into the text. -/
def Span := Nat × Nat
deriving instance DecidableEq for Span

/-- Backtracking matcher in continuation style.  `reM fuel r s i cap k`
tries to match `r` in text `s` starting at offset `i`; on each candidate
end offset, in the preference order of Python's engine, it calls the
continuation `k` with the position and the current group-1 span, and it
returns the first continuation success.  Fuel only bounds recursion
depth; every use below supplies enough of it. -/
def reM : Nat → RE → List Char → Nat → Option Span →
    (Nat → Option Span → Option (Option Span)) → Option (Option Span)
  | 0, _, _, _, _, _ => none
  | _ + 1, .eps, _, i, cap, k => k i cap
  | _ + 1, .lit c, s, i, cap, k =>
    match s.get? i with
    | some ch => if ch.toLower == c.toLower then k (i + 1) cap else none
    | none => none
  | _ + 1, .cls cl, s, i, cap, k =>
    match s.get? i with
    | some ch => if clsMatch cl ch then k (i + 1) cap else none
    | none => none
  | fuel + 1, .seq a b, s, i, cap, k =>
    reM fuel a s i cap (fun j c2 => reM fuel b s j c2 k)
  | fuel + 1, .alt a b, s, i, cap, k =>
    match reM fuel a s i cap k with
    | some res => some res
    | none => reM fuel b s i cap k
  | fuel + 1, .star r lzy, s, i, cap, k =>
    -- a repetition body that consumed nothing stops the iteration
    if lzy then
      match k i cap with
      | some res => some res
      | none => reM fuel r s i cap
          (fun j c2 => if j ≤ i then none else reM fuel (RE.star r lzy) s j c2 k)
    else
      match reM fuel r s i cap
          (fun j c2 => if j ≤ i then none else reM fuel (RE.star r lzy) s j c2 k) with
      | some res => some res
      | none => k i cap
  | fuel + 1, .group r, s, i, cap, k =>
    reM fuel r s i cap (fun j _ => k j (some (i, j)))
  | fuel + 1, .look r, s, i, cap, k =>
    match reM fuel r s i cap (fun _ _ => some none) with
    | some _ => k i cap
    | none => none
  | _ + 1, .eol, s, i, cap, k =>
    if i == s.length || s.get? i == some '\n' then k i cap else none

/-- Fuel ample for every search below: recursion depth is bounded by the
tree size plus one per consumed character per repetition. -/
def matchFuel (s : List Char) : Nat := (s.length + 16) * 8

/-- One attempt at a fixed start offset. -/
def searchPos (r : RE) (s : List Char) (i : Nat) : Option (Option Span) :=
  reM (matchFuel s) r s i none (fun _ cap => some cap)

/-- `re.search`: scan start offsets left to right and keep the first match. -/
def reSearch (r : RE) (s : List Char) : Option (Option Span) :=
  (List.range (s.length + 1)).findSome? (fun i => searchPos r s i)

/-- The text of group 1 of the first match, if any.  Every pattern in the
taxonomy contains exactly one group and it always participates in a
successful match, so the fallback empty list is never produced there. -/
def reSearchCap (r : RE) (s : List Char) : Option (List Char) :=
  match reSearch r s with
  | some (some (a, b)) => some ((s.drop a).take (b - a))
  | some none => some []
  | none => none

/-- `str.strip`: remove leading and trailing whitespace. -/
def stripChars (l : List Char) : List Char :=
  ((l.dropWhile isWs).reverse.dropWhile isWs).reverse

/-- Substitution of every maximal whitespace run by a single space, as the
recognizer's whitespace-collapsing substitution does.  The flag records
whether the previous character was inside a whitespace run. -/
def collapseAux : Bool → List Char → List Char
  | _, [] => []
  | prevWs, c :: rest =>
    if isWs c then
      if prevWs then collapseAux true rest
      else ' ' :: collapseAux true rest
    else c :: collapseAux false rest

/-- Value normalization of `extract_data_from_text`: strip, then collapse
whitespace runs to single spaces. -/
def normalizeVal (l : List Char) : List Char := collapseAux false (stripChars l)

/-- The sentinel for a field none of whose rules matched. -/
def notFound : List Char := "Not Found".toList

/-- The inner rule loop of `extract_data_from_text`: try the rules in
order; the first match ends the loop with its normalized capture. -/
def tryPatterns : List RE → List Char → Option (List Char)
  | [], _ => none
  | p :: ps, t =>
    match reSearchCap p t with
    | some capv => some (normalizeVal capv)
    | none => tryPatterns ps t

/-- Field assignment: the loop result if it is a truthy (non-empty)
string, else the sentinel — `value if value else "Not Found"`. -/
def fieldValue (pats : List RE) (t : List Char) : List Char :=
  match tryPatterns pats t with
  | some v => if v = [] then notFound else v
  | none => notFound

/-- `r'Lab:\s*([^\n]+)'` for a literal label `Lab:`. -/
def simpleLine (lab : String) : RE :=
  RE.seq (litS lab)
    (RE.seq (RE.star (RE.cls Cls.ws) false) (RE.group (plus1 (RE.cls Cls.notNl))))

/-- `r'Root(?:\s+Extra)?:\s*([^\n]+)'`. -/
def labelOpt (root extra : String) : RE :=
  RE.seq (litS root)
    (RE.seq (opt1 (RE.seq (plus1 (RE.cls Cls.ws)) (litS extra)))
      (RE.seq (litS ":")
        (RE.seq (RE.star (RE.cls Cls.ws) false) (RE.group (plus1 (RE.cls Cls.notNl))))))

/-- The group of the electronic-mail patterns: one or more non-space
chars, an at sign, one or more non-space chars. -/
def emailCap : RE :=
  RE.group (RE.seq (plus1 (RE.cls Cls.notWsNl))
    (RE.seq (RE.lit '@') (plus1 (RE.cls Cls.notWsNl))))

/-- `r'Email(?:\s+Address)?:\s*([^\s\n]+@[^\s\n]+)'`. -/
def emailPat1 : RE :=
  RE.seq (litS "Email")
    (RE.seq (opt1 (RE.seq (plus1 (RE.cls Cls.ws)) (litS "Address")))
      (RE.seq (litS ":") (RE.seq (RE.star (RE.cls Cls.ws) false) emailCap)))

/-- `r'E-mail:\s*([^\s\n]+@[^\s\n]+)'`. -/
def emailPat2 : RE :=
  RE.seq (litS "E-mail:") (RE.seq (RE.star (RE.cls Cls.ws) false) emailCap)

/-- The first address rule:
`r'Address:\s*([^\n]+(?:\n[^\n:]+)*?)(?=\n[A-Z][a-z]*:|$)'` —
label, optional whitespace, then a group of one line plus a lazy
repetition of further lines without colons, ended by a lookahead for a
label line or the dollar anchor. -/
def addressPat1 : RE :=
  RE.seq (litS "Address:")
    (RE.seq (RE.star (RE.cls Cls.ws) false)
      (RE.seq
        (RE.group (RE.seq (plus1 (RE.cls Cls.notNl))
          (RE.star (RE.seq (RE.lit '\n') (plus1 (RE.cls Cls.notNlCol))) true)))
        (RE.look (RE.alt
          (RE.seq (RE.lit '\n')
            (RE.seq (RE.cls Cls.upperAl)
              (RE.seq (RE.star (RE.cls Cls.lowerAl) false) (RE.lit ':'))))
          RE.eol))))

/-- `r'(?:Overall\s+)?(?:Satisfaction\s+)?Rating:\s*([^\n]+)'`. -/
def ratingPat1 : RE :=
  RE.seq (opt1 (RE.seq (litS "Overall") (plus1 (RE.cls Cls.ws))))
    (RE.seq (opt1 (RE.seq (litS "Satisfaction") (plus1 (RE.cls Cls.ws))))
      (simpleLine "Rating:"))

/-- `r'Rate.*?:\s*([^\n]+)'`. -/
def ratingPat2 : RE :=
  RE.seq (litS "Rate")
    (RE.seq (RE.star (RE.cls Cls.dot) true)
      (RE.seq (litS ":")
        (RE.seq (RE.star (RE.cls Cls.ws) false) (RE.group (plus1 (RE.cls Cls.notNl))))))

/-- The field taxonomy of `PDFConverter.__init__`: every field id with its
ordered rule list, in declaration order. -/
def extraction_patterns : List (String × List RE) := [
  ("name", [simpleLine "Name:", simpleLine "Full Name:", simpleLine "Applicant Name:"]),
  ("email", [emailPat1, emailPat2]),
  ("phone", [labelOpt "Phone" "Number", simpleLine "Telephone:", simpleLine "Contact Number:"]),
  ("address", [addressPat1, simpleLine "Mailing Address:"]),
  ("date_of_birth", [simpleLine "Date of Birth:", simpleLine "DOB:", simpleLine "Birth Date:"]),
  ("ssn", [simpleLine "Social Security Number:", simpleLine "SSN:"]),
  ("position", [simpleLine "Position Applied For:", simpleLine "Job Title:", simpleLine "Position:"]),
  ("salary", [simpleLine "Desired Salary:", simpleLine "Expected Salary:", simpleLine "Salary Expectation:"]),
  ("experience", [simpleLine "Years of Experience:", simpleLine "Experience:", simpleLine "Work Experience:"]),
  ("availability", [simpleLine "Availability:", simpleLine "Start Date:"]),
  ("employment_type", [simpleLine "Employment Type:", simpleLine "Position Type:"]),
  ("degree", [simpleLine "Highest Degree:", simpleLine "Degree:", simpleLine "Education Level:"]),
  ("major", [simpleLine "Major/Field of Study:", simpleLine "Major:", simpleLine "Field of Study:"]),
  ("institution", [simpleLine "Institution:", simpleLine "University:", simpleLine "School:"]),
  ("graduation_year", [simpleLine "Graduation Year:", simpleLine "Grad Year:"]),
  ("gpa", [simpleLine "GPA:", simpleLine "Grade Point Average:"]),
  ("customer_name", [simpleLine "Customer Name:"]),
  ("purchase_date", [simpleLine "Purchase Date:"]),
  ("product", [labelOpt "Product" "Purchased"]),
  ("rating", [ratingPat1, ratingPat2]),
  ("recommend", [simpleLine "Would Recommend:", simpleLine "Recommendation:"]),
  ("customer_id", [simpleLine "Customer ID:", simpleLine "ID:"])]

/-- `extract_data_from_text`: one record, every taxonomy field mapped to
its recognized value or the sentinel. -/
def extract_data_from_text (t : List Char) : List (String × List Char) :=
  extraction_patterns.map (fun fp => (fp.1, fieldValue fp.2 t))

/-- Classes none of whose members are whitespace. -/
def clsNoWs : Cls → Bool
  | .notWsNl => true
  | .upperAl => true
  | .lowerAl => true
  | _ => false

/-- A conservative check that every successful match of `r` must read at
least one non-whitespace character somewhere in the text.  For a literal
the lower-cased character is tested because matching is
case-insensitive. -/
def needsNonWs : RE → Bool
  | .eps => false
  | .lit c => !(isWs c.toLower)
  | .cls cl => clsNoWs cl
  | .seq a b => needsNonWs a || needsNonWs b
  | .alt a b => needsNonWs a && needsNonWs b
  | .star _ _ => false
  | .group r => needsNonWs r
  | .look r => needsNonWs r
  | .eol => false

/-! ### Quality analyzer (`analyze_results.py`, `analyze_extraction_quality`) -/

/-- One row of the quality table: field id, number of records in which the
field is present, batch size, and the success rate in percent. -/
structure QEntry where
  field : String
  found : Nat
  total : Nat
  rate : ℚ
deriving DecidableEq

/-- The provenance columns skipped by the analyzer. -/
def excluded_columns : List String := ["source_file", "processed_date"]

def notFoundStr : String := "Not Found"

/-- Number of records of the batch whose cell in `col` is not the
sentinel.  A record batch is a list of rows, each row a function from
column name to cell text. -/
def foundCount (rows : List (String → String)) (col : String) : Nat :=
  (rows.filter (fun r => r col ≠ notFoundStr)).length

/-- The per-field statistics: `success_rate = (found_count / total_records) * 100`. -/
def qualityEntry (rows : List (String → String)) (f : String) : QEntry :=
  { field := f, found := foundCount rows f, total := rows.length,
    rate := ((foundCount rows f : ℚ) / (rows.length : ℚ)) * 100 }

/-- The statistics loop of `analyze_extraction_quality` (the part before
sorting).  Python divides `found_count / total_records` with no guard, so
a batch of zero records with at least one non-excluded column raises a
zero-division error; that failure is the `none` result. -/
def qualityData (columns : List String) (rows : List (String → String)) :
    Option (List QEntry) :=
  if (columns.filter (fun c => !(excluded_columns.contains c))).length ≠ 0 ∧
      rows.length = 0 then none
  else some ((columns.filter (fun c => !(excluded_columns.contains c))).map
    (fun f => qualityEntry rows f))

/-- Descending order of success rate. -/
def SortedDescRate (l : List QEntry) : Prop :=
  List.Pairwise (fun a b => b.rate ≤ a.rate) l

/-- The observable contract of `analyze_extraction_quality`: the entry
list of `qualityData`, rearranged by `sort_values` into some permutation
that descends by rate.  The sort keyword of the source is the default
quicksort, whose contract fixes the ordering of the keys but not the
relative order of entries with equal rates, so the output is modelled
relationally.  `entries ≠ []` reflects that the function then indexes the
first and last row of the sorted table (best and worst field), which
fails on an empty table. -/
def analyzeQualityRel (columns : List String) (rows : List (String → String))
    (out : List QEntry) : Prop :=
  ∃ entries, qualityData columns rows = some entries ∧ entries ≠ [] ∧
    out.Perm entries ∧ SortedDescRate out

/-- Performance buckets of `create_quality_visualization`. -/
inductive Bucket where
  | excellent
  | good
  | fair
  | poor
deriving DecidableEq

/-- The classification chain: strict comparisons against 90, 70, 50. -/
def bucketOf (rate : ℚ) : Bucket :=
  if rate > 90 then Bucket.excellent
  else if rate > 70 then Bucket.good
  else if rate > 50 then Bucket.fair
  else Bucket.poor

/-! ### Report assembler (`save_to_excel` column ordering) -/

def priority_columns : List String :=
  ["source_file", "name", "email", "phone", "position",
   "customer_name", "product", "rating", "processed_date"]

/-- The ordering loop of `save_to_excel`: walk the priority list; a
priority column present in the remaining columns is emitted and removed;
what remains of the input is appended at the end in its original order. -/
def orderLoop : List String → List String → List String
  | [], all_cols => all_cols
  | c :: ps, all_cols =>
    if c ∈ all_cols then c :: orderLoop ps (all_cols.erase c)
    else orderLoop ps all_cols

def orderedColumns (all_cols : List String) : List String :=
  orderLoop priority_columns all_cols

/-! ### Insight miner (`analyze_data_patterns`, experience scan) -/

/-- `str.split()`: split on whitespace runs, producing no empty tokens.
The accumulator holds the current token reversed. -/
def splitToksAux : List Char → List Char → List (List Char)
  | [], acc => if acc.isEmpty then [] else [acc.reverse]
  | c :: rest, acc =>
    if isWs c then
      if acc.isEmpty then splitToksAux rest []
      else acc.reverse :: splitToksAux rest []
    else splitToksAux rest (c :: acc)

def splitToks (l : List Char) : List (List Char) := splitToksAux l []

/-- `s.isdigit()` for ASCII text: non-empty and all digits. -/
def isDigitTok (t : List Char) : Bool := !t.isEmpty && t.all Char.isDigit

/-- `int(s)` on a digit token. -/
def natOfTok (t : List Char) : Nat :=
  t.foldl (fun acc c => acc * 10 + (c.toNat - '0'.toNat)) 0

/-- The numeric mining of one experience cell: the first
whitespace-delimited all-digit token, if any. -/
def parseFirstInt (s : List Char) : Option Nat :=
  (((splitToks s).filter isDigitTok).head?).map natOfTok

/-- All parsed experience numbers of a batch: sentinel cells are dropped,
then cells without a digit token are silently skipped. -/
def usableExperience (vals : List (List Char)) : List Nat :=
  (vals.filter (fun v => v ≠ notFound)).filterMap parseFirstInt

/-- The experience insight: the arithmetic mean of the parsed numbers,
or nothing when no cell parses. -/
def experienceMean (vals : List (List Char)) : Option ℚ :=
  let nums := usableExperience vals
  if nums.isEmpty then none
  else some (((nums.map (fun n => (n : ℚ))).sum) / (nums.length : ℚ))

end PdfSpec

namespace PdfSpec

/-! ## Supporting lemmas about the matcher -/

/-- The matcher signals success only through its continuation: a
continuation that always fails makes the whole match fail. -/
theorem reM_none_of_k_none (fuel : Nat) : ∀ (r : RE) (s : List Char) (i : Nat)
    (cap : Option Span) (k : Nat → Option Span → Option (Option Span)),
    (∀ j c, k j c = none) → reM fuel r s i cap k = none := by
  induction fuel with
  | zero => intro r s i cap k _; rfl
  | succ f ih =>
    intro r s i cap k hk
    cases r with
    | eps => exact hk i cap
    | lit c =>
      simp only [reM]
      cases s.get? i with
      | none => rfl
      | some ch =>
        dsimp only
        by_cases h : (ch.toLower == c.toLower) = true
        · rw [if_pos h]; exact hk _ _
        · rw [if_neg h]
    | cls cl =>
      simp only [reM]
      cases s.get? i with
      | none => rfl
      | some ch =>
        dsimp only
        by_cases h : clsMatch cl ch = true
        · rw [if_pos h]; exact hk _ _
        · rw [if_neg h]
    | seq a b =>
      simp only [reM]
      exact ih a s i cap _ (fun j c2 => ih b s j c2 k hk)
    | alt a b =>
      simp only [reM]
      rw [ih a s i cap k hk]
      exact ih b s i cap k hk
    | star r1 lzy =>
      simp only [reM]
      have hstep : reM f r1 s i cap
          (fun j c2 => if j ≤ i then none else reM f (RE.star r1 lzy) s j c2 k) = none := by
        refine ih r1 s i cap _ (fun j c2 => ?_)
        by_cases hj : j ≤ i
        · simp [hj]
        · simp only [hj, if_false]
          exact ih (RE.star r1 lzy) s j c2 k hk
      cases lzy with
      | true => rw [if_pos rfl, hk i cap]; exact hstep
      | false => simp only [Bool.false_eq_true, if_false]; rw [hstep]; exact hk i cap
    | group r1 =>
      simp only [reM]
      exact ih r1 s i cap _ (fun j c2 => hk j _)
    | look r1 =>
      simp only [reM]
      cases reM f r1 s i cap (fun _ _ => some none) with
      | none => rfl
      | some v => exact hk i cap
    | eol =>
      simp only [reM]
      by_cases h : (i == s.length || s.get? i == some '\n') = true
      · rw [if_pos h]; exact hk _ _
      · rw [if_neg h]

/-- The six whitespace characters are fixed by lower-casing. -/
theorem toLower_of_ws (c : Char) (h : isWs c = true) : c.toLower = c := by
  have hc := h
  simp only [isWs, Bool.or_eq_true, beq_iff_eq] at hc
  rcases hc with ((((h | h) | h) | h) | h) | h <;> subst h <;> decide

/-- No whitespace character is a letter. -/
theorem not_alpha_of_ws (c : Char) (h : isWs c = true) : c.isAlpha = false := by
  have hc := h
  simp only [isWs, Bool.or_eq_true, beq_iff_eq] at hc
  rcases hc with ((((h | h) | h) | h) | h) | h <;> subst h <;> decide

/-- On a text made of whitespace only, a match tree that must consume a
non-whitespace character never matches, whatever the continuation. -/
theorem reM_ws_none (fuel : Nat) : ∀ (r : RE) (s : List Char),
    (∀ c ∈ s, isWs c = true) → needsNonWs r = true →
    ∀ (i : Nat) (cap : Option Span)
      (k : Nat → Option Span → Option (Option Span)),
    reM fuel r s i cap k = none := by
  induction fuel with
  | zero => intro r s _ _ i cap k; rfl
  | succ f ih =>
    intro r s hws hr i cap k
    cases r with
    | eps => simp [needsNonWs] at hr
    | lit c =>
      simp only [reM]
      cases hg : s.get? i with
      | none => rfl
      | some ch =>
        have hchs : ch ∈ s := List.get?_mem hg
        have hchw : isWs ch = true := hws ch hchs
        have : (ch.toLower == c.toLower) = false := by
          apply beq_eq_false_iff_ne.mpr
          intro he
          have h1 : isWs c.toLower = false := by
            simpa [needsNonWs] using hr
          rw [← he, toLower_of_ws ch hchw] at h1
          rw [hchw] at h1
          exact Bool.true_eq_false.mp h1
        simp [this]
    | cls cl =>
      simp only [reM]
      cases hg : s.get? i with
      | none => rfl
      | some ch =>
        have hchw : isWs ch = true := hws ch (List.get?_mem hg)
        have : clsMatch cl ch = false := by
          cases cl <;> simp_all [needsNonWs, clsNoWs, clsMatch, not_alpha_of_ws]
        simp [this]
    | seq a b =>
      simp only [reM]
      by_cases ha : needsNonWs a = true
      · exact ih a s hws ha i cap _
      · have hb : needsNonWs b = true := by
          rcases Bool.or_eq_true_iff.mp (by simpa [needsNonWs] using hr) with h | h
          · exact absurd h ha
          · exact h
        exact reM_none_of_k_none f a s i cap _ (fun j c2 => ih b s hws hb j c2 k)
    | alt a b =>
      have hab := Bool.and_eq_true_iff.mp (by simpa [needsNonWs] using hr)
      simp only [reM]
      rw [ih a s hws hab.1 i cap k]
      exact ih b s hws hab.2 i cap k
    | star r1 lzy => simp [needsNonWs] at hr
    | group r1 =>
      simp only [reM]
      exact ih r1 s hws (by simpa [needsNonWs] using hr) i cap _
    | look r1 =>
      simp only [reM]
      rw [ih r1 s hws (by simpa [needsNonWs] using hr) i cap _]
    | eol => simp [needsNonWs] at hr

/-- Whitespace-only text defeats the whole search. -/
theorem reSearch_ws_none (r : RE) (s : List Char)
    (hws : ∀ c ∈ s, isWs c = true) (hr : needsNonWs r = true) :
    reSearch r s = none := by
  unfold reSearch
  rw [List.findSome?_eq_none_iff]
  intro i _
  exact reM_ws_none (matchFuel s) r s hws hr i none _

theorem reSearchCap_ws_none (r : RE) (s : List Char)
    (hws : ∀ c ∈ s, isWs c = true) (hr : needsNonWs r = true) :
    reSearchCap r s = none := by
  unfold reSearchCap
  rw [reSearch_ws_none r s hws hr]

/-- A field whose rules all fail gets the sentinel. -/
theorem fieldValue_eq_notFound (pats : List RE) (t : List Char)
    (h : ∀ p ∈ pats, reSearchCap p t = none) : fieldValue pats t = notFound := by
  have hnone : tryPatterns pats t = none := by
    induction pats with
    | nil => rfl
    | cons p ps ihp =>
      simp only [tryPatterns]
      rw [h p (List.mem_cons_self p ps)]
      exact ihp (fun q hq => h q (List.mem_cons_of_mem p hq))
  simp [fieldValue, hnone]

/-! ## Supporting lemmas about normalization -/

/-- Collapsing is idempotent, in either starting state of the run flag. -/
theorem collapseAux_idem : ∀ l : List Char,
    collapseAux false (collapseAux false l) = collapseAux false l ∧
    collapseAux false (collapseAux true l) = collapseAux true l ∧
    collapseAux true (collapseAux true l) = collapseAux true l := by
  intro l
  induction l with
  | nil => exact ⟨rfl, rfl, rfl⟩
  | cons c rest ih =>
    by_cases hc : isWs c = true
    · simp only [collapseAux, hc, if_true]
      refine ⟨?_, ih.2.1, ih.2.2⟩
      simp only [collapseAux, show isWs ' ' = true from rfl, if_true]
      exact congrArg (' ' :: ·) ih.2.2
    · simp only [collapseAux, hc, if_false]
      exact ⟨congrArg (c :: ·) ih.1, congrArg (c :: ·) ih.1, congrArg (c :: ·) ih.1⟩

/-- The head surviving a `dropWhile` fails the dropped predicate. -/
theorem dropWhile_head_false (q : Char → Bool) : ∀ (l : List Char) (d : Char),
    (l.dropWhile q).head? = some d → q d = false := by
  intro l
  induction l with
  | nil => intro d h; simp [List.dropWhile] at h
  | cons c rest ih =>
    intro d h
    by_cases hq : q c = true
    · exact ih d (by simpa [List.dropWhile, hq] using h)
    · have : c = d := by simpa [List.dropWhile, hq] using h
      subst this
      exact Bool.not_eq_true _ ▸ hq

/-- The last element of a non-empty tail is the last of the whole list. -/
theorem getLast?_cons_ne (c : Char) (rest : List Char) (h : rest ≠ []) :
    (c :: rest).getLast? = rest.getLast? := by
  rcases rest with _ | ⟨d, t⟩
  · exact absurd rfl h
  · rw [List.getLast?_cons_cons]

theorem mem_of_getLast?Aux : ∀ (l : List Char) (x : Char),
    l.getLast? = some x → x ∈ l := by
  intro l
  induction l with
  | nil => intro x h; simp at h
  | cons c rest ih =>
    intro x h
    rcases hrest : rest with _ | ⟨d, t⟩
    · subst hrest
      have : c = x := by simpa using h
      exact this ▸ List.mem_cons_self c []
    · subst hrest
      rw [getLast?_cons_ne c (d :: t) (by simp)] at h
      exact List.mem_cons_of_mem c (ih x h)

/-- `dropWhile` keeps the last element, unless it drops everything. -/
theorem dropWhile_getLast (q : Char → Bool) : ∀ l : List Char,
    l.dropWhile q = [] ∨ (l.dropWhile q).getLast? = l.getLast? := by
  intro l
  induction l with
  | nil => exact Or.inl rfl
  | cons c rest ih =>
    by_cases hq : q c = true
    · rw [List.dropWhile_cons_of_pos hq]
      rcases hrest : rest with _ | ⟨d, t⟩
      · subst hrest; exact Or.inl rfl
      · subst hrest
        rcases ih with h | h
        · exact Or.inl h
        · exact Or.inr (h.trans (getLast?_cons_ne c (d :: t) (by simp)).symm)
    · rw [List.dropWhile_cons_of_neg hq]
      exact Or.inr rfl

/-- The first character of a stripped string is not whitespace. -/
theorem stripChars_head (l : List Char) (d : Char)
    (h : (stripChars l).head? = some d) : isWs d = false := by
  unfold stripChars at h
  rw [List.head?_reverse] at h
  rcases dropWhile_getLast isWs ((l.dropWhile isWs).reverse) with he | he
  · rw [he] at h; simp at h
  · rw [he, List.getLast?_reverse] at h
    exact dropWhile_head_false isWs l d h

/-- The last character of a stripped string is not whitespace. -/
theorem stripChars_getLast (l : List Char) (d : Char)
    (h : (stripChars l).getLast? = some d) : isWs d = false := by
  unfold stripChars at h
  rw [List.getLast?_reverse] at h
  exact dropWhile_head_false isWs _ d h

/-- A collapse that produced nothing consumed only whitespace. -/
theorem collapseAux_eq_nil : ∀ (l : List Char) (b : Bool),
    collapseAux b l = [] → ∀ c ∈ l, isWs c = true := by
  intro l
  induction l with
  | nil => intro b _ c hc; simp at hc
  | cons a rest ih =>
    intro b h c hc
    by_cases ha : isWs a = true
    · rcases List.mem_cons.mp hc with rfl | hcr
      · exact ha
      · cases b with
        | true => exact ih true (by simpa [collapseAux, ha] using h) c hcr
        | false => simp [collapseAux, ha] at h
    · simp [collapseAux, ha] at h

/-- Collapsing keeps a non-whitespace head. -/
theorem collapseAux_head (l : List Char) (d : Char)
    (hh : l.head? = some d) (hd : isWs d = false) :
    (collapseAux false l).head? = some d := by
  rcases l with _ | ⟨c, rest⟩
  · simp at hh
  · have : c = d := by simpa using hh
    subst this
    simp [collapseAux, hd]

/-- Collapsing keeps the last character non-whitespace when the input
ends in a non-whitespace character. -/
theorem collapseAux_getLast : ∀ (l : List Char) (b : Bool),
    (∀ z, l.getLast? = some z → isWs z = false) →
    ∀ z, (collapseAux b l).getLast? = some z → isWs z = false := by
  intro l
  induction l with
  | nil => intro b _ z hz; simp [collapseAux] at hz
  | cons c rest ih =>
    intro b hlast z hz
    rcases hrest : rest with _ | ⟨d, t⟩
    · subst hrest
      by_cases hc : isWs c = true
      · have h1 : isWs c = false := hlast c (by simp)
        rw [hc] at h1; exact absurd h1 (by simp)
      · have hz2 : (collapseAux b [c]) = [c] := by
          cases b <;> simp [collapseAux, hc]
        rw [hz2] at hz
        have : c = z := by simpa using hz
        subst this
        simpa using hc
    · have hrne : rest ≠ [] := by rw [hrest]; simp
      have hlast2 : ∀ z2, rest.getLast? = some z2 → isWs z2 = false := by
        intro z2 hz2
        exact hlast z2 ((getLast?_cons_ne c rest hrne).trans hz2)
      by_cases hc : isWs c = true
      · cases b with
        | true =>
          rw [show collapseAux true (c :: rest) = collapseAux true rest from by
            simp [collapseAux, hc]] at hz
          exact ih true hlast2 z hz
        | false =>
          rw [show collapseAux false (c :: rest) = ' ' :: collapseAux true rest from by
            simp [collapseAux, hc]] at hz
          have hne : collapseAux true rest ≠ [] := by
            intro he
            have hallws := collapseAux_eq_nil rest true he
            rcases hlx : rest.getLast? with _ | x
            · rw [hrest] at hlx; simp at hlx
            · have h1 : isWs x = false := hlast2 x hlx
              have h2 : x ∈ rest := mem_of_getLast?Aux rest x hlx
              rw [hallws x h2] at h1
              exact absurd h1 (by simp)
          rw [getLast?_cons_ne _ _ hne] at hz
          exact ih true hlast2 z hz
      · have hz2 : collapseAux b (c :: rest) = c :: collapseAux false rest := by
          cases b <;> simp [collapseAux, hc]
        rw [hz2] at hz
        by_cases hne : collapseAux false rest = []
        · rw [hne] at hz
          have : c = z := by simpa using hz
          subst this
          simpa using hc
        · rw [getLast?_cons_ne _ _ hne] at hz
          exact ih false hlast2 z hz

/-- A string with no whitespace at either end is fixed by `stripChars`. -/
theorem stripChars_fix (v : List Char)
    (hh : ∀ d, v.head? = some d → isWs d = false)
    (hl : ∀ d, v.getLast? = some d → isWs d = false) :
    stripChars v = v := by
  have h1 : v.dropWhile isWs = v := by
    rcases v with _ | ⟨c, t⟩
    · rfl
    · exact List.dropWhile_cons_of_neg (by simp [hh c rfl])
  unfold stripChars
  rw [h1]
  have h2 : v.reverse.dropWhile isWs = v.reverse := by
    rcases hv : v.reverse with _ | ⟨c, t⟩
    · rfl
    · have hc : v.getLast? = some c := by
        rw [← List.head?_reverse, hv]; rfl
      exact List.dropWhile_cons_of_neg (by simp [hl c hc])
  rw [h2, List.reverse_reverse]

/-- Normalization is idempotent. -/
theorem normalizeVal_idem (l : List Char) :
    normalizeVal (normalizeVal l) = normalizeVal l := by
  unfold normalizeVal
  have hstrip : stripChars (collapseAux false (stripChars l)) =
      collapseAux false (stripChars l) := by
    apply stripChars_fix
    · intro d hd
      rcases hm : (stripChars l).head? with _ | c
      · rcases hsl : stripChars l with _ | ⟨x, xs⟩
        · rw [hsl] at hd; simp [collapseAux] at hd
        · rw [hsl] at hm; simp at hm
      · have hcw : isWs c = false := stripChars_head l c hm
        have := collapseAux_head (stripChars l) c hm hcw
        rw [this] at hd
        have : c = d := by simpa using hd
        subst this; exact hcw
    · exact collapseAux_getLast (stripChars l) false (stripChars_getLast l)
  rw [hstrip]
  exact (collapseAux_idem (stripChars l)).1

/-! ## Rule-loop lemmas -/

/-- Every value the rule loop produces is a normalized capture. -/
theorem tryPatterns_some_normal : ∀ (pats : List RE) (t w : List Char),
    tryPatterns pats t = some w → ∃ cv, w = normalizeVal cv := by
  intro pats
  induction pats with
  | nil => intro t w h; simp [tryPatterns] at h
  | cons p ps ih =>
    intro t w h
    simp only [tryPatterns] at h
    cases hc : reSearchCap p t with
    | some cv =>
      rw [hc] at h
      exact ⟨cv, by simpa using h.symm⟩
    | none =>
      rw [hc] at h
      exact ih t w h

/-- Rules whose searches fail are skipped by the loop. -/
theorem tryPatterns_skip (t : List Char) : ∀ (ps1 rest : List RE),
    (∀ q ∈ ps1, reSearchCap q t = none) →
    tryPatterns (ps1 ++ rest) t = tryPatterns rest t := by
  intro ps1
  induction ps1 with
  | nil => intro rest _; rfl
  | cons q qs ih =>
    intro rest hq
    simp only [List.cons_append, tryPatterns]
    rw [hq q (List.mem_cons_self q qs)]
    exact ih rest (fun x hx => hq x (List.mem_cons_of_mem q hx))

/-! ## Claim theorems for the recognizer -/

/-- C4 (amended): for every taxonomy field the recognizer tries the
field's rules in declaration order; when every rule fails the value is
the sentinel, and when some rule matches, the first such rule's
normalized capture is the value — except that an empty normalized
capture also yields the sentinel, because the assignment treats the
empty string as falsy. -/
theorem c4_first_match (f : String) (pats : List RE) (t : List Char)
    (hf : (f, pats) ∈ extraction_patterns) :
    ((∀ p ∈ pats, reSearchCap p t = none) → fieldValue pats t = notFound) ∧
    (∀ (ps1 : List RE) (p : RE) (ps2 : List RE) (cv : List Char),
      pats = ps1 ++ p :: ps2 →
      (∀ q ∈ ps1, reSearchCap q t = none) → reSearchCap p t = some cv →
      fieldValue pats t =
        if normalizeVal cv = [] then notFound else normalizeVal cv) := by
  constructor
  · exact fieldValue_eq_notFound pats t
  · intro ps1 p ps2 cv hsplit hskip hp
    subst hsplit
    unfold fieldValue
    rw [tryPatterns_skip t ps1 (p :: ps2) hskip]
    simp only [tryPatterns, hp]

/-- C4 witness: the first email rule wins on the canonical email text. -/
theorem c4_first_match_witness :
    fieldValue [emailPat1, emailPat2] "Email: a@b.com".toList = "a@b.com".toList := by
  have h := (c4_first_match "email" [emailPat1, emailPat2] "Email: a@b.com".toList
    (by decide)).2 [] emailPat1 [emailPat2] "a@b.com".toList rfl
    (by intro q hq; simp at hq) (by decide)
  rw [h]
  decide

/-- C4 counterexample: on this text the first name rule does match, its
capture is a single space whose normalization is empty, and the
recognizer assigns the sentinel — not the (empty) normalized capture
that the claim promises. -/
theorem c4_empty_capture_counterexample :
    reSearchCap (simpleLine "Name:") "Name:   ".toList = some [' '] ∧
    normalizeVal [' '] = [] ∧
    fieldValue [simpleLine "Name:", simpleLine "Full Name:", simpleLine "Applicant Name:"]
      "Name:   ".toList = notFound ∧
    notFound ≠ normalizeVal [' '] :=
  ⟨by decide, by decide, by decide, by decide⟩

/-- C10: every (field, value) entry of a record either carries the
sentinel or a non-empty value fixed by normalization; in particular a
first-match whose normalization is empty is replaced by the sentinel. -/
theorem c10_record_values (t : List Char) (f : String) (pats : List RE)
    (hf : (f, pats) ∈ extraction_patterns) :
    (f, fieldValue pats t) ∈ extract_data_from_text t ∧
    (tryPatterns pats t = some [] → fieldValue pats t = notFound) ∧
    (fieldValue pats t = notFound ∨
      (fieldValue pats t ≠ [] ∧
        normalizeVal (fieldValue pats t) = fieldValue pats t)) := by
  refine ⟨List.mem_map.mpr ⟨(f, pats), hf, rfl⟩, ?_, ?_⟩
  · intro h; simp [fieldValue, h]
  · cases h : tryPatterns pats t with
    | none => exact Or.inl (by simp [fieldValue, h])
    | some w =>
      by_cases hw : w = []
      · exact Or.inl (by simp [fieldValue, h, hw])
      · right
        have hv : fieldValue pats t = w := by simp [fieldValue, h, hw]
        obtain ⟨cv, hcv⟩ := tryPatterns_some_normal pats t w h
        rw [hv]
        exact ⟨hw, hcv ▸ normalizeVal_idem cv⟩

/-- C10 witness: the phone field on a label followed by blank space only:
the loop yields an empty normalized capture and the record stores the
sentinel. -/
theorem c10_record_values_witness :
    tryPatterns [labelOpt "Phone" "Number", simpleLine "Telephone:",
      simpleLine "Contact Number:"] "Phone:  ".toList = some [] ∧
    fieldValue [labelOpt "Phone" "Number", simpleLine "Telephone:",
      simpleLine "Contact Number:"] "Phone:  ".toList = notFound := by
  have h := c10_record_values "Phone:  ".toList "phone"
    [labelOpt "Phone" "Number", simpleLine "Telephone:", simpleLine "Contact Number:"]
    (by decide)
  exact ⟨by decide, h.2.1 (by decide)⟩

/-- C8: recognition on whitespace-only (or empty) text returns the
record that maps every taxonomy field to the sentinel. -/
theorem c8_whitespace_all_sentinel (t : List Char)
    (hws : ∀ c ∈ t, isWs c = true) :
    extract_data_from_text t = extraction_patterns.map (fun fp => (fp.1, notFound)) := by
  unfold extract_data_from_text
  apply List.map_congr_left
  intro fp hfp
  have hall : ∀ gp ∈ extraction_patterns, ∀ p ∈ gp.2, needsNonWs p = true := by decide
  have hnone : ∀ p ∈ fp.2, reSearchCap p t = none := fun p hp =>
    reSearchCap_ws_none p t hws (hall fp hfp p hp)
  rw [fieldValue_eq_notFound fp.2 t hnone]

/-- C8 witness: a small whitespace-only text yields the all-sentinel
record. -/
theorem c8_whitespace_all_sentinel_witness :
    (∀ c ∈ " \n\t ".toList, isWs c = true) ∧
    extract_data_from_text " \n\t ".toList =
      extraction_patterns.map (fun fp => (fp.1, notFound)) :=
  ⟨by decide, c8_whitespace_all_sentinel _ (by decide)⟩

/-- C9: recognition is a pure function of the text against the static
taxonomy — identical input text yields an identical record. -/
theorem c9_recognize_deterministic (t1 t2 : List Char) (h : t1 = t2) :
    extract_data_from_text t1 = extract_data_from_text t2 := by rw [h]

/-- C9 witness. -/
theorem c9_recognize_deterministic_witness :
    extract_data_from_text "Email: a@b.com".toList =
      extract_data_from_text "Email: a@b.com".toList :=
  c9_recognize_deterministic _ _ rfl

/-- C1: the dollar anchor of the address rule also matches at every line
end under MULTILINE, so the lookahead succeeds right after the first
captured line and the rule never captures past it: on a two-line address
followed by a label line the address value is the first line only, not
the claimed join of all lines up to the next label. -/
theorem c1_address_first_line_only :
    fieldValue [addressPat1, simpleLine "Mailing Address:"]
      "Address: 123 Main St\nApt 4\nPhone: 555-1234".toList = "123 Main St".toList ∧
    "123 Main St".toList ≠ "123 Main St Apt 4".toList :=
  ⟨by decide, by decide⟩

/-! ## Claim theorems for the quality analyzer -/

/-- C2 counterexample: a batch with zero records and a non-excluded
column makes the per-field loop divide by zero, so the analyzer raises
instead of returning a table of zero rates. -/
theorem c2_empty_batch_raises : qualityData ["name"] [] = none := by decide

/-- C2 (amended): on every non-empty batch the analyzer returns one
entry per non-excluded column with
`rate = 100 * found / total`, `found ≤ total`, and `0 ≤ rate ≤ 100`;
the zero-record guard of the claim does not exist in the code. -/
theorem c2_rates_bounded (columns : List String) (rows : List (String → String))
    (hne : rows ≠ []) :
    qualityData columns rows =
      some ((columns.filter (fun c => !(excluded_columns.contains c))).map
        (fun f => qualityEntry rows f)) ∧
    ∀ e ∈ (columns.filter (fun c => !(excluded_columns.contains c))).map
        (fun f => qualityEntry rows f),
      e.rate = 100 * (e.found : ℚ) / (e.total : ℚ) ∧
      e.found ≤ e.total ∧ 0 ≤ e.rate ∧ e.rate ≤ 100 := by
  have hlen : rows.length ≠ 0 := by simpa [List.length_eq_zero] using hne
  constructor
  · unfold qualityData
    rw [if_neg (by push_neg; intro _; exact hlen)]
  · intro e he
    obtain ⟨f, hf, rfl⟩ := List.mem_map.mp he
    have hfle : foundCount rows f ≤ rows.length := List.length_filter_le _ _
    refine ⟨?_, ?_, ?_, ?_⟩
    · show ((foundCount rows f : ℚ) / (rows.length : ℚ)) * 100 =
        100 * (foundCount rows f : ℚ) / (rows.length : ℚ)
      ring
    · exact hfle
    · show (0 : ℚ) ≤ ((foundCount rows f : ℚ) / (rows.length : ℚ)) * 100
      positivity
    · show ((foundCount rows f : ℚ) / (rows.length : ℚ)) * 100 ≤ 100
      have h2 : (0 : ℚ) < (rows.length : ℚ) := by
        exact_mod_cast Nat.pos_of_ne_zero hlen
      have h3 : (foundCount rows f : ℚ) / (rows.length : ℚ) ≤ 1 :=
        (div_le_one h2).mpr (by exact_mod_cast hfle)
      calc ((foundCount rows f : ℚ) / (rows.length : ℚ)) * 100
          ≤ 1 * 100 := mul_le_mul_of_nonneg_right h3 (by norm_num)
        _ = 100 := one_mul 100

/-- C2 witness: a one-record batch. -/
theorem c2_rates_bounded_witness :
    qualityData ["name", "source_file"] [fun _ => "Jane"] =
      some (((["name", "source_file"] : List String).filter
        (fun c => !(excluded_columns.contains c))).map
        (fun f => qualityEntry [fun _ => "Jane"] f)) ∧
    ∀ e ∈ ((["name", "source_file"] : List String).filter
        (fun c => !(excluded_columns.contains c))).map
        (fun f => qualityEntry [fun _ => "Jane"] f),
      e.rate = 100 * (e.found : ℚ) / (e.total : ℚ) ∧
      e.found ≤ e.total ∧ 0 ≤ e.rate ∧ e.rate ≤ 100 :=
  c2_rates_bounded ["name", "source_file"] [fun _ => "Jane"] (by simp)

/-- C3 counterexample: with two fields tied at rate zero, the sorted
output that reverses the field-declaration order also satisfies the
analyzer's contract (the default sort keyword is quicksort, which does
not promise stability), so the tie order of the claim is not guaranteed
and with it the choice of best and worst field on ties. -/
theorem c3_tie_not_stable :
    analyzeQualityRel ["name", "email"] [fun _ => notFoundStr]
      [QEntry.mk "email" 0 1 0, QEntry.mk "name" 0 1 0] ∧
    [QEntry.mk "email" 0 1 0, QEntry.mk "name" 0 1 0] ≠
      [QEntry.mk "name" 0 1 0, QEntry.mk "email" 0 1 0] := by
  constructor
  · refine ⟨[QEntry.mk "name" 0 1 0, QEntry.mk "email" 0 1 0], ?_, by decide,
      by decide, ?_⟩
    · unfold qualityData
      rw [if_neg (by decide)]
      rw [show List.filter (fun c => !(excluded_columns.contains c)) ["name", "email"] =
        ["name", "email"] from rfl]
      simp only [List.map_cons, List.map_nil]
      unfold qualityEntry
      rw [show foundCount [fun _ => notFoundStr] "name" = 0 from rfl,
        show foundCount [fun _ => notFoundStr] "email" = 0 from rfl,
        show ([fun _ => notFoundStr] : List (String → String)).length = 1 from rfl]
      norm_num
    · unfold SortedDescRate
      decide
  · decide

/-- C3 (amended): every output the analyzer can produce is a permutation
of the per-field entry table, sorted by descending rate; the relative
order of entries with equal rates is not specified. -/
theorem c3_sorted_desc_perm (columns : List String) (rows : List (String → String))
    (out : List QEntry) (h : analyzeQualityRel columns rows out) :
    SortedDescRate out ∧
    out.Perm ((columns.filter (fun c => !(excluded_columns.contains c))).map
      (fun f => qualityEntry rows f)) := by
  obtain ⟨entries, hq, hne, hperm, hsort⟩ := h
  refine ⟨hsort, ?_⟩
  unfold qualityData at hq
  by_cases hcond : (columns.filter (fun c => !(excluded_columns.contains c))).length ≠ 0 ∧
      rows.length = 0
  · rw [if_pos hcond] at hq
    exact absurd hq (by simp)
  · rw [if_neg hcond] at hq
    have : entries = (columns.filter (fun c => !(excluded_columns.contains c))).map
        (fun f => qualityEntry rows f) :=
      (Option.some.inj hq).symm
    exact this ▸ hperm

/-- C3 witness: a singleton batch. -/
theorem c3_sorted_desc_perm_witness :
    SortedDescRate [QEntry.mk "name" 1 1 100] ∧
    List.Perm [QEntry.mk "name" 1 1 100]
      (((["name"] : List String).filter (fun c => !(excluded_columns.contains c))).map
        (fun f => qualityEntry [fun _ => "Jane"] f)) := by
  apply c3_sorted_desc_perm ["name"] [fun _ => "Jane"]
  refine ⟨[QEntry.mk "name" 1 1 100], ?_, by decide, by decide, ?_⟩
  · unfold qualityData
    rw [if_neg (by decide)]
    rw [show List.filter (fun c => !(excluded_columns.contains c)) ["name"] =
      ["name"] from rfl]
    simp only [List.map_cons, List.map_nil]
    unfold qualityEntry
    rw [show foundCount [fun _ => "Jane"] "name" = 1 from rfl,
      show ([fun _ => "Jane"] : List (String → String)).length = 1 from rfl]
    norm_num
  · unfold SortedDescRate
    decide

/-- C5: the bucket chain classifies with strict boundaries: above 90 is
excellent, above 70 good, above 50 fair, otherwise poor; exactly 70
falls to fair and exactly 90 to good. -/
theorem c5_bucket_boundaries : ∀ r : ℚ,
    (bucketOf r = Bucket.excellent ↔ 90 < r) ∧
    (bucketOf r = Bucket.good ↔ 70 < r ∧ r ≤ 90) ∧
    (bucketOf r = Bucket.fair ↔ 50 < r ∧ r ≤ 70) ∧
    (bucketOf r = Bucket.poor ↔ r ≤ 50) ∧
    bucketOf 70 = Bucket.fair ∧ bucketOf 90 = Bucket.good := by
  intro r
  refine ⟨?_, ?_, ?_, ?_, by norm_num [bucketOf], by norm_num [bucketOf]⟩ <;>
  · by_cases h1 : r > 90
    · have hb : bucketOf r = Bucket.excellent := by unfold bucketOf; rw [if_pos h1]
      rw [hb]
      constructor <;> intro hx
      · first | exact h1 | exact absurd hx (by decide)
      · first | rfl | (exact absurd hx (by decide)) | linarith [hx.1, hx.2] | linarith
    · by_cases h2 : r > 70
      · have hb : bucketOf r = Bucket.good := by
          unfold bucketOf; rw [if_neg h1, if_pos h2]
        push_neg at h1
        rw [hb]
        constructor <;> intro hx
        · first | exact ⟨h2, h1⟩ | exact absurd hx (by decide)
        · first | rfl | (exact absurd hx (by decide)) | linarith [hx.1, hx.2] | linarith
      · by_cases h3 : r > 50
        · have hb : bucketOf r = Bucket.fair := by
            unfold bucketOf; rw [if_neg h1, if_neg h2, if_pos h3]
          push_neg at h1 h2
          rw [hb]
          constructor <;> intro hx
          · first | exact ⟨h3, h2⟩ | exact absurd hx (by decide)
          · first | rfl | (exact absurd hx (by decide)) | linarith [hx.1, hx.2] | linarith
        · have hb : bucketOf r = Bucket.poor := by
            unfold bucketOf; rw [if_neg h1, if_neg h2, if_neg h3]
          push_neg at h1 h2 h3
          rw [hb]
          constructor <;> intro hx
          · first | exact h3 | exact absurd hx (by decide)
          · first | rfl | (exact absurd hx (by decide)) | linarith [hx.1, hx.2] | linarith

/-! ## Claim theorems for the report assembler -/

/-- Erasing a column already handled commutes with keeping the columns
outside the remaining priority ids, provided the columns are distinct. -/
theorem erase_filter_cons (p : String) (ps : List String) :
    ∀ cols : List String, cols.Nodup →
    (cols.erase p).filter (fun c => decide (c ∉ ps)) =
      cols.filter (fun c => decide (c ∉ p :: ps)) := by
  intro cols
  induction cols with
  | nil => intro _; rfl
  | cons c t ih =>
    intro hnd
    obtain ⟨hct, htd⟩ := List.nodup_cons.mp hnd
    by_cases hcp : c = p
    · subst hcp
      rw [List.erase_cons_head]
      rw [List.filter_cons_of_neg (by simp)]
      apply List.filter_congr
      intro x hx
      have hxc : x ≠ c := fun he => hct (he ▸ hx)
      simp [List.mem_cons, hxc]
    · rw [List.erase_cons_tail (by simp [hcp])]
      by_cases hcps : c ∈ ps
      · rw [List.filter_cons_of_neg (by simp [hcps]),
          List.filter_cons_of_neg (by simp [List.mem_cons, hcps])]
        exact ih htd
      · rw [List.filter_cons_of_pos (by simp [hcps]),
          List.filter_cons_of_pos (by simp [List.mem_cons, hcp, hcps])]
        exact congrArg (c :: ·) (ih htd)

/-- The ordering loop emits the priority ids present in the input, in
priority order, then the remaining input ids in input order. -/
theorem orderLoop_eq : ∀ prio cols : List String, prio.Nodup → cols.Nodup →
    orderLoop prio cols =
      prio.filter (fun c => decide (c ∈ cols)) ++
        cols.filter (fun c => decide (c ∉ prio)) := by
  intro prio
  induction prio with
  | nil =>
    intro cols _ _
    simp [orderLoop]
  | cons p ps ih =>
    intro cols hp hc
    obtain ⟨hpps, hps⟩ := List.nodup_cons.mp hp
    simp only [orderLoop]
    by_cases hmem : p ∈ cols
    · rw [if_pos hmem, ih (cols.erase p) hps (hc.erase p),
        List.filter_cons_of_pos (by simpa using hmem), List.cons_append]
      have e1 : ps.filter (fun c => decide (c ∈ cols.erase p)) =
          ps.filter (fun c => decide (c ∈ cols)) := by
        apply List.filter_congr
        intro x hx
        have hxp : x ≠ p := fun he => hpps (he ▸ hx)
        simp [List.mem_erase_of_ne hxp]
      rw [e1, erase_filter_cons p ps cols hc]
    · rw [if_neg hmem, ih cols hps hc,
        List.filter_cons_of_neg (by simpa using hmem)]
      have e3 : cols.filter (fun c => decide (c ∉ ps)) =
          cols.filter (fun c => decide (c ∉ p :: ps)) := by
        apply List.filter_congr
        intro x hx
        have hxp : x ≠ p := fun he => hmem (he ▸ hx)
        simp [List.mem_cons, hxp]
      rw [e3]

/-- C6 (amended): the emitted column list is the priority ids present
in the input, in the fixed priority order, followed by the remaining
input ids in their original relative order; nothing is duplicated or
dropped (the output is a permutation of a duplicate-free input).  For
the fixture field set the output is
`[source_file, name, processed_date, custom_x]` — `processed_date` is
itself a priority id and therefore precedes the non-priority
`custom_x`, unlike the order the claim displays. -/
theorem c6_priority_order (cols : List String) (hnd : cols.Nodup) :
    orderedColumns cols =
      priority_columns.filter (fun c => decide (c ∈ cols)) ++
        cols.filter (fun c => decide (c ∉ priority_columns)) ∧
    (orderedColumns cols).Perm cols ∧ (orderedColumns cols).Nodup := by
  have hchar := orderLoop_eq priority_columns cols (by decide) hnd
  have hperm : (orderedColumns cols).Perm cols := by
    rw [orderedColumns, hchar]
    have hn1 : (priority_columns.filter (fun c => decide (c ∈ cols))).Nodup :=
      List.Nodup.filter _ (by decide)
    have hn2 : (cols.filter (fun c => decide (c ∈ priority_columns))).Nodup :=
      List.Nodup.filter _ hnd
    have h1 : (priority_columns.filter (fun c => decide (c ∈ cols))).Perm
        (cols.filter (fun c => decide (c ∈ priority_columns))) := by
      rw [List.perm_ext_iff_of_nodup hn1 hn2]
      intro a
      simp only [List.mem_filter, decide_eq_true_eq]
      exact ⟨fun ha => ⟨ha.2, ha.1⟩, fun ha => ⟨ha.2, ha.1⟩⟩
    refine (h1.append_right _).trans ?_
    have e4 : cols.filter (fun c => decide (c ∉ priority_columns)) =
        cols.filter (fun x => !(decide (x ∈ priority_columns))) := by
      apply List.filter_congr
      intro x hx
      simp [decide_not]
    rw [e4]
    exact List.filter_append_perm _ cols
  exact ⟨by rw [orderedColumns]; exact hchar, hperm, hperm.nodup_iff.mpr hnd⟩

/-- C6 counterexample: on the fixture field set the assembler emits
`processed_date` (a priority id) before the non-priority `custom_x`,
not after it as the claim's example order states. -/
theorem c6_fixture_counterexample :
    orderedColumns ["processed_date", "custom_x", "name", "source_file"] =
      ["source_file", "name", "processed_date", "custom_x"] ∧
    orderedColumns ["processed_date", "custom_x", "name", "source_file"] ≠
      ["source_file", "name", "custom_x", "processed_date"] :=
  ⟨by decide, by decide⟩

/-- C6 witness: the fixture field set, with the order the code
produces. -/
theorem c6_priority_order_witness :
    orderedColumns ["processed_date", "custom_x", "name", "source_file"] =
      ["source_file", "name", "processed_date", "custom_x"] ∧
    (orderedColumns ["processed_date", "custom_x", "name", "source_file"]).Perm
      ["processed_date", "custom_x", "name", "source_file"] := by
  have h := c6_priority_order ["processed_date", "custom_x", "name", "source_file"]
    (by decide)
  exact ⟨by decide, h.2.1⟩

/-! ## Claim theorem for the insight miner -/

/-- C7: the experience insight drops the sentinel cells, parses the
first all-digit whitespace token of each remaining cell, silently skips
cells without one, reports nothing when no cell parses and otherwise
the arithmetic mean; the fixture list averages to 4. -/
theorem c7_experience_mean (vals : List (List Char)) :
    (experienceMean vals = none ↔ usableExperience vals = []) ∧
    (∀ m, experienceMean vals = some m →
      m = ((usableExperience vals).map (fun n => (n : ℚ))).sum /
        ((usableExperience vals).length : ℚ)) ∧
    parseFirstInt "N/A".toList = none ∧
    experienceMean ["5 years".toList, "N/A".toList, "3 yrs".toList] = some 4 := by
  refine ⟨?_, ?_, by decide, ?_⟩
  case refine_3 =>
    unfold experienceMean
    rw [show usableExperience ["5 years".toList, "N/A".toList, "3 yrs".toList] =
      [5, 3] from rfl]
    norm_num
  · unfold experienceMean
    by_cases h : (usableExperience vals).isEmpty
    · simp [h, List.isEmpty_iff.mp h]
    · simp only [h, if_false, Bool.false_eq_true]
      simp [List.isEmpty_iff] at h
      simp [h]
  · intro m hm
    unfold experienceMean at hm
    by_cases h : (usableExperience vals).isEmpty
    · simp [h] at hm
    · simp only [h, if_false, Bool.false_eq_true] at hm
      exact (Option.some.inj hm).symm

/-- C7 witness: the fixture list parses to 5 and 3 and averages to 4. -/
theorem c7_experience_mean_witness :
    experienceMean ["5 years".toList, "N/A".toList, "3 yrs".toList] = some 4 ∧
    (4 : ℚ) = ((usableExperience ["5 years".toList, "N/A".toList, "3 yrs".toList]).map
      (fun n => (n : ℚ))).sum /
      ((usableExperience ["5 years".toList, "N/A".toList, "3 yrs".toList]).length : ℚ) := by
  have h := c7_experience_mean ["5 years".toList, "N/A".toList, "3 yrs".toList]
  exact ⟨h.2.2.2, h.2.1 4 h.2.2.2⟩

end PdfSpec
